import Mathlib

/-!
Verification of the photo-album WebDAV gateway core.

The Python sources are shallowly embedded over `List Char` strings:
`server/apps/webdav/path_mapper.py` (path translation and validation),
`server/apps/files/infrastructure/metadata.py` (storage-path validation),
`server/apps/files/logic/file_operations.py` (upload / delete / overwrite),
`server/apps/files/logic/quota_operations.py` (quota accounting),
`server/apps/files/logic/trash_operations.py` (trash engine),
`server/apps/files/management/commands/cleanup_trash.py` (purge job),
`server/apps/webdav/dav_provider.py` and
`server/apps/webdav/resources/*.py` (resource resolver and write buffers).

Strings are modelled as `List Char`; byte payloads as `List Char`; the
S3 blob store and the database tables as association lists carried in an
explicit state record.  SHA-256 and MIME sniffing are kept as
uninterpreted function parameters (`MetaFns`): no verified property
depends on concrete hash values, only on which fields are written.
-/

/-- Strings of the embedded program: Python `str` as a list of characters. -/
abbrev Str := List Char

/-- Python `s.lstrip('/')`: drop leading slash characters. -/
def lstripSlash (s : Str) : Str := s.dropWhile (· == '/')

/-- Python `s.rstrip('/')`: drop trailing slash characters. -/
def rstripSlash (s : Str) : Str := (s.reverse.dropWhile (· == '/')).reverse

/-- Python `s.strip('/')` as used throughout `path_mapper.py`. -/
def stripSlash (s : Str) : Str := rstripSlash (lstripSlash s)

/-- Python's substring operator `needle in hay` (contiguous occurrence). -/
def substrIn (needle hay : Str) : Bool :=
  match hay with
  | [] => needle.isEmpty
  | _ :: tl => needle.isPrefixOf hay || substrIn needle tl

/-- PathMapper.to_storage_path: strip slashes; the root maps to the bare
user-id string, everything else to `"{user_id}/" ++ normalized`. -/
def to_storage_path (uidStr : Str) (webdavPath : Str) : Str :=
  let normalized := stripSlash webdavPath
  if normalized = [] then uidStr else uidStr ++ '/' :: normalized

/-- PathMapper.to_webdav_path: the bare user-id string maps to `/`; keys
under `"{user_id}/"` lose the user-id; any other key is returned with a
leading slash, unchanged. -/
def to_webdav_path (uidStr : Str) (storagePath : Str) : Str :=
  let normalized := stripSlash storagePath
  if normalized = uidStr then ['/']
  else if (uidStr ++ ['/']).isPrefixOf normalized then
    '/' :: normalized.drop (uidStr.length + 1)
  else '/' :: normalized

/-- PathMapper.is_root: true when the slash-stripped path is empty. -/
def is_root (webdavPath : Str) : Bool := stripSlash webdavPath == []

/-- PathMapper.validate_path: rejects any path containing `..` as a
substring (Python `'..' in webdav_path`) or a NUL byte. -/
def validate_path (webdavPath : Str) : Bool :=
  if substrIn ['.', '.'] webdavPath then false
  else !(webdavPath.contains '\x00')

/-- The `/.Trash` constant of `path_mapper.py`. -/
def trashPathStr : Str := "/.Trash".toList

/-- PathMapper.is_trash_path: path is `/.Trash` or below it. -/
def is_trash_path (webdavPath : Str) : Bool :=
  let normalized := rstripSlash webdavPath
  normalized == trashPathStr
    || (trashPathStr ++ ['/']).isPrefixOf normalized

/-- PathMapper.is_trash_root: the rstripped path equals `/.Trash`. -/
def is_trash_root (webdavPath : Str) : Bool :=
  rstripSlash webdavPath == trashPathStr

/-- Normalization of a WebDAV path as the specification uses the word: a
single leading slash followed by the slash-stripped path.  Modelled from
the spec for the round-trip comparison of claim C8. -/
def normalizePath (webdavPath : Str) : Str := '/' :: stripSlash webdavPath

/-- Validity of a path in the words of the spec, for claim C7: modelled
from the spec sentence `validate(webdav) → false iff path contains ..
segments or any NUL byte`.  A `..` segment is a slash-separated component
equal to `..`. -/
def spec_validate_path (webdavPath : Str) : Bool :=
  !(List.splitOn '/' webdavPath).contains ['.', '.']
    && !(webdavPath.contains '\x00')

example : stripSlash "/docs/a.txt".toList = "docs/a.txt".toList := by decide
example : to_storage_path "7".toList "/docs/a.txt".toList
    = "7/docs/a.txt".toList := by decide
example : to_webdav_path "7".toList "7/docs/a.txt".toList
    = "/docs/a.txt".toList := by decide
example : to_webdav_path "7".toList "7".toList = "/".toList := by decide
example : validate_path "/a..b.txt".toList = false := by decide
example : spec_validate_path "/a..b.txt".toList = true := by decide
example : is_trash_root "/.Trash/".toList = true := by decide
example : is_trash_root "/.Trash".toList = true := by decide

/-- Numeric value of a digit string (most significant first). -/
def digitsVal (ds : Str) : Nat :=
  ds.foldl (fun acc c => acc * 10 + (c.toNat - 48)) 0

/-- ASCII whitespace accepted by Python `int(str)` around the number. -/
def pyWhitespace (c : Char) : Bool :=
  c == ' ' || c == '\t' || c == '\n' || c == '\r'

/-- Python `int(str)`: optional surrounding whitespace, optional sign, a
non-empty run of decimal digits (leading zeros allowed).  Python's
underscore digit grouping is not modelled; no path in the repository
produces it. -/
def int_of_str (s : Str) : Option Int :=
  let t := ((s.dropWhile pyWhitespace).reverse.dropWhile pyWhitespace).reverse
  let core : Str → Option Nat := fun ds =>
    if !ds.isEmpty && ds.all (·.isDigit) then some (digitsVal ds) else none
  match t with
  | '+' :: ds => (core ds).map (fun n => (n : Int))
  | '-' :: ds => (core ds).map (fun n => -(n : Int))
  | ds => (core ds).map (fun n => (n : Int))

/-- Python `pathlib.Path(p).parts`: split on `/`, drop empty and `.`
components, with a root marker part when the path is absolute. -/
def pathParts (p : Str) : List Str :=
  let segs := (List.splitOn '/' p).filter (fun s => !s.isEmpty && s != ['.'])
  if p.head? = some '/' then ['/'] :: segs else segs

/-- Python `pathlib.Path(p).name`: the final non-empty component. -/
def extract_filename (p : Str) : Str :=
  ((List.splitOn '/' p).filter (fun s => !s.isEmpty && s != ['.'])).getLastD []

/-- metadata.validate_storage_path: true when no ValidationError is
raised, i.e. the path is non-empty, has a first component, that component
parses as an integer, and the integer equals the owner's user id. -/
def validate_storage_path (userId : Int) (storagePath : Str) : Bool :=
  if storagePath.isEmpty then false
  else
    match pathParts storagePath with
    | [] => false
    | firstComponent :: _ =>
      match int_of_str firstComponent with
      | none => false
      | some v => v == userId

example : validate_storage_path 123 "123/file.txt".toList = true := by decide
example : validate_storage_path 123 "0123/file.txt".toList = true := by decide
example : validate_storage_path 123 "124/file.txt".toList = false := by decide
example : validate_storage_path 123 "abc/file.txt".toList = false := by decide
example : validate_storage_path 123 [] = false := by decide

/-- File record (the `File` model of `models.py`): owner, storage key
(the `file` field), cached size/mime/checksum metadata, and the trash
attributes.  The shipped `models.py` does not declare the four trash
fields or the live/all managers, but `trash_operations.py`,
`cleanup_trash.py` and the WebDAV trash resources read and write them;
their meaning here follows the spec (section 3) and those uses. -/
structure FileRec where
  fid : Nat
  owner : Int
  key : Str
  size_bytes : Nat
  mime_type : Str
  checksum_sha256 : Str
  is_deleted : Bool
  deleted_at : Option Int
  original_path : Str
  trash_name : Str
deriving DecidableEq, Repr

/-- UserQuota row: per-owner limit and usage in bytes. -/
structure Quota where
  owner : Int
  quota_bytes : Nat
  used_bytes : Nat
deriving DecidableEq, Repr

/-- The combined durable state: File rows, the S3 blob store as an
association list from storage key to content, UserQuota rows, and the
next primary key the database will assign. -/
structure SysState where
  records : List FileRec
  blobs : List (Str × Str)
  quotas : List Quota
  next_id : Nat
deriving DecidableEq, Repr

/-- Content stored under a key in the blob store. -/
def blobLookup (blobs : List (Str × Str)) (key : Str) : Option Str :=
  (blobs.find? (fun kv => kv.fst == key)).map (·.snd)

/-- Modelled alternative name: django-storages (`file_overwrite=False`)
saves under a randomly suffixed alternative name when the key is taken;
the random suffix is modelled deterministically. -/
def alternativeName (key : Str) : Str := key ++ "_alt".toList

/-- FileStorage.save: store the content, returning the actual key used
(the requested key, or an alternative one on collision). -/
def storageSave (blobs : List (Str × Str)) (key content : Str) :
    List (Str × Str) × Str :=
  match blobLookup blobs key with
  | none => ((key, content) :: blobs, key)
  | some _ => ((alternativeName key, content) :: blobs, alternativeName key)

/-- FileStorage.delete (also FileStorage.rollback_upload, whose failures
are swallowed: the successful deletion is what is modelled). -/
def storageDelete (blobs : List (Str × Str)) (key : Str) :
    List (Str × Str) :=
  blobs.filter (fun kv => kv.fst != key)

/-- Default quota limit of `models.py`: 10 GiB. -/
def default_quota_bytes : Nat := 10 * 1024 * 1024 * 1024

/-- The UserQuota row of an owner, if present. -/
def quotaFind (qs : List Quota) (o : Int) : Option Quota :=
  qs.find? (fun q => q.owner == o)

/-- quota_operations.get_or_create_quota. -/
def get_or_create_quota (qs : List Quota) (o : Int) : List Quota × Quota :=
  match quotaFind qs o with
  | some q => (qs, q)
  | none =>
    let q : Quota := ⟨o, default_quota_bytes, 0⟩
    (qs ++ [q], q)

/-- UserQuota.has_space_for. -/
def has_space_for (q : Quota) (sizeBytes : Nat) : Bool :=
  decide (q.used_bytes + sizeBytes ≤ q.quota_bytes)

/-- The structured QuotaExceededError of `exceptions.py`. -/
structure QuotaExceededError where
  quota_bytes : Nat
  used_bytes : Nat
  required_bytes : Nat
deriving DecidableEq, Repr

/-- quota_operations.check_quota: ensure the row exists, then fail with
QuotaExceededError when the upload would not fit. -/
def check_quota (qs : List Quota) (o : Int) (sizeBytes : Nat) :
    Except QuotaExceededError (List Quota) :=
  let (qs1, q) := get_or_create_quota qs o
  if has_space_for q sizeBytes then .ok qs1
  else .error ⟨q.quota_bytes, q.used_bytes, sizeBytes⟩

/-- Apply an update to every quota row of the given owner (the ORM
`filter(user=...).update(...)` / `save()` shape). -/
def updateQuotaRow (qs : List Quota) (o : Int) (f : Quota → Quota) :
    List Quota :=
  qs.map (fun q => if q.owner == o then f q else q)

/-- quota_operations.increment_usage: atomic `used_bytes += n`; when no
row exists, create one and set `used_bytes := n`. -/
def increment_usage (qs : List Quota) (o : Int) (n : Nat) : List Quota :=
  match quotaFind qs o with
  | some _ => updateQuotaRow qs o
      (fun q => { q with used_bytes := q.used_bytes + n })
  | none => updateQuotaRow (get_or_create_quota qs o).1 o
      (fun q => { q with used_bytes := n })

/-- quota_operations.decrement_usage: `used_bytes := max 0 (used - n)`
(Nat subtraction is the clamp); no-op when the row is missing. -/
def decrement_usage (qs : List Quota) (o : Int) (n : Nat) : List Quota :=
  match quotaFind qs o with
  | none => qs
  | some _ => updateQuotaRow qs o
      (fun q => { q with used_bytes := q.used_bytes - n })

/-- quota_operations.adjust_usage: increment by a positive difference,
decrement by the magnitude of a negative one, otherwise do nothing.  No
quota check happens on either branch. -/
def adjust_usage (qs : List Quota) (o : Int) (oldSize newSize : Nat) :
    List Quota :=
  let sizeDiff : Int := (newSize : Int) - (oldSize : Int)
  if sizeDiff > 0 then increment_usage qs o (newSize - oldSize)
  else if sizeDiff < 0 then decrement_usage qs o (oldSize - newSize)
  else qs

/-- Modelled from the spec: `adjust(owner, old_size, new_size)` in the
spec's words (section 4.5) — `if new > old then check + add by the
positive delta; if new < old then sub by the magnitude; else no-op` — for
comparison with the implemented adjust_usage in claim C6. -/
def adjust_usage_spec (qs : List Quota) (o : Int) (oldSize newSize : Nat) :
    Except QuotaExceededError (List Quota) :=
  if newSize > oldSize then
    match check_quota qs o (newSize - oldSize) with
    | .error e => .error e
    | .ok qs1 => .ok (increment_usage qs1 o (newSize - oldSize))
  else if newSize < oldSize then
    .ok (decrement_usage qs o (oldSize - newSize))
  else .ok qs

example : adjust_usage [⟨7, 100, 90⟩] 7 0 50 = [⟨7, 100, 140⟩] := by decide
example : adjust_usage [⟨7, 100, 90⟩] 7 50 10 = [⟨7, 100, 50⟩] := by decide
example : adjust_usage_spec [⟨7, 100, 90⟩] 7 0 50
    = .error ⟨100, 90, 50⟩ := rfl

/-- Uninterpreted metadata extractors: SHA-256 of a payload and MIME
sniffing from payload and filename (`metadata.py` calculate_checksum and
detect_mime_type). -/
structure MetaFns where
  hashFn : Str → Str
  mimeFn : Str → Str → Str

/-- Errors surfaced by upload_file: path validation failure, or a failed
database insert (after which the blob write is rolled back). -/
inductive UploadError where
  | validationError
  | dbError
deriving DecidableEq, Repr

/-- Modelled from the spec: `File.objects`, the live view (records with
`is_deleted = false`, section 4.4).  The shipped `models.py` declares no
soft-delete-aware manager; the spec and every trash-aware call site fix
the default manager as the live view. -/
def objects_find (recs : List FileRec) (p : FileRec → Bool) :
    Option FileRec :=
  recs.find? (fun r => !r.is_deleted && p r)

/-- Modelled from the spec: `File.all_objects`, the all view over live and
trashed records (section 4.4), used by the trash engine and the purge
job. -/
def all_objects_find (recs : List FileRec) (p : FileRec → Bool) :
    Option FileRec :=
  recs.find? p

/-- file_operations.upload_file: validate the storage path, compute
metadata, save the blob (step 1), then insert the File row (step 2),
rolling back the blob if the insert fails.  The quota is not consulted
anywhere on this path. -/
def upload_file (mf : MetaFns) (userId : Int) (storagePath : Str)
    (content : Str) (st : SysState) : SysState × Except UploadError FileRec :=
  if !(validate_storage_path userId storagePath) then
    (st, .error .validationError)
  else
    let filename := extract_filename storagePath
    let checksum := mf.hashFn content
    let mimeType := mf.mimeFn content filename
    let fileSize := content.length
    let (blobs1, savedName) := storageSave st.blobs storagePath content
    if st.records.any (fun r => r.owner == userId && r.key == savedName) then
      ({ st with blobs := storageDelete blobs1 savedName }, .error .dbError)
    else
      let created : FileRec :=
        { fid := st.next_id, owner := userId, key := savedName,
          size_bytes := fileSize, mime_type := mimeType,
          checksum_sha256 := checksum, is_deleted := false,
          deleted_at := none, original_path := [], trash_name := [] }
      ({ st with records := st.records ++ [created], blobs := blobs1,
                 next_id := st.next_id + 1 }, .ok created)

/-- file_operations.delete_file: look the record up by id, delete the row,
and let the post_delete signal (`signals.py`) remove the blob.  The quota
rows are untouched.  The returned flag is false when the record was not
found (File.DoesNotExist). -/
def delete_file (st : SysState) (fileId : Nat) : SysState × Bool :=
  match objects_find st.records (fun r => r.fid == fileId) with
  | none => (st, false)
  | some r =>
    ({ st with records := st.records.filter (fun x => x.fid != fileId),
               blobs := storageDelete st.blobs r.key }, true)

/-- file_operations._upload_and_update_file: save the new content under
`old_key + ".tmp"` (step 1), commit the record mutation (step 2,
injectable failure `commitFails`), rolling the temp blob back on failure;
on success delete the old blob (step 3, best effort). -/
def upload_and_update_file (st : SysState) (r : FileRec) (fileSize : Nat)
    (mimeType checksum : Str) (content : Str) (commitFails : Bool) :
    SysState × Bool :=
  let oldStoragePath := r.key
  let tempStoragePath := oldStoragePath ++ ".tmp".toList
  let (blobs1, savedTemp) := storageSave st.blobs tempStoragePath content
  if commitFails then
    ({ st with blobs := storageDelete blobs1 savedTemp }, false)
  else
    let updated : FileRec :=
      { r with key := savedTemp, size_bytes := fileSize,
               mime_type := mimeType, checksum_sha256 := checksum }
    ({ st with
        records := st.records.map (fun x => if x.fid == r.fid then updated else x),
        blobs := storageDelete blobs1 oldStoragePath }, true)

/-- file_operations.update_file_content: load the record, compute the new
metadata, and run the atomic overwrite protocol. -/
def update_file_content (mf : MetaFns) (st : SysState) (fileId : Nat)
    (content : Str) (commitFails : Bool) : SysState × Bool :=
  match objects_find st.records (fun r => r.fid == fileId) with
  | none => (st, false)
  | some r =>
    upload_and_update_file st r content.length
      (mf.mimeFn content (extract_filename r.key)) (mf.hashFn content)
      content commitFails

/-- file_resource._UploadBuffer.close: a write stream on an existing File
resource; an empty buffer performs no write at all, otherwise the atomic
overwrite runs. -/
def upload_buffer_close (mf : MetaFns) (st : SysState) (fileId : Nat)
    (content : Str) (commitFails : Bool) : SysState × Bool :=
  if content.isEmpty then (st, true)
  else update_file_content mf st fileId content commitFails

/-- file_resource._NewFileBuffer.close: always creates the file, even for
an empty buffer (Finder sends an empty PUT first). -/
def new_file_buffer_close (mf : MetaFns) (uidStr : Str) (userId : Int)
    (st : SysState) (webdavPath : Str) (content : Str) :
    SysState × Except UploadError FileRec :=
  upload_file mf userId (to_storage_path uidStr webdavPath) content st

/-- Ordered insertion for the insertion sort modelling the ORM
`order_by`. -/
def insertLe (le : FileRec → FileRec → Bool) (a : FileRec) :
    List FileRec → List FileRec
  | [] => [a]
  | b :: bs => if le a b then a :: b :: bs else b :: insertLe le a bs

/-- Insertion sort by the given comparison (models `order_by`). -/
def sortLe (le : FileRec → FileRec → Bool) : List FileRec → List FileRec
  | [] => []
  | a :: as => insertLe le a (sortLe le as)

/-- Sort key used by trash listings and the purge job. -/
def deletedAtKey (r : FileRec) : Int := r.deleted_at.getD 0

/-- trash_operations.list_trash: the owner's deleted records, newest
deletion first. -/
def list_trash (recs : List FileRec) (userId : Int) : List FileRec :=
  sortLe (fun a b => decide (deletedAtKey b ≤ deletedAtKey a))
    (recs.filter (fun r => r.owner == userId && r.is_deleted))

/-- trash_operations.permanent_delete_file: fetch the trashed record from
the all view, delete the row (the post_delete signal removes the blob)
and decrement the owner's usage, in one transaction. -/
def permanent_delete_file (st : SysState) (fileId : Nat) : SysState × Bool :=
  match all_objects_find st.records (fun r => r.fid == fileId && r.is_deleted) with
  | none => (st, false)
  | some r =>
    ({ st with records := st.records.filter (fun x => x.fid != fileId),
               blobs := storageDelete st.blobs r.key,
               quotas := decrement_usage st.quotas r.owner r.size_bytes }, true)

/-- Retention window of `cleanup_trash.py`, in days. -/
def retention_days : Nat := 30

/-- Expiry predicate of the purge job: deleted, with
`deleted_at ≤ cutoff` (records with no deletion timestamp never match,
as in the SQL `deleted_at__lte`). -/
def is_expired (cutoff : Int) (r : FileRec) : Bool :=
  r.is_deleted && (match r.deleted_at with
    | some d => decide (d ≤ cutoff)
    | none => false)

/-- cleanup_trash Command.handle: select deleted records older than the
30-day cutoff, oldest first, up to the batch size, and permanently delete
each (per-item failures are caught and skipped, which for present records
never happens in the model). -/
def cleanup_trash (st : SysState) (now : Int) (batchSize : Nat) : SysState :=
  let cutoff := now - (retention_days : Int) * 86400
  let oldFiles :=
    (sortLe (fun a b => decide (deletedAtKey a ≤ deletedAtKey b))
      (st.records.filter (is_expired cutoff))).take batchSize
  oldFiles.foldl (fun s r => (permanent_delete_file s r.fid).1) st

/-- The resource kinds a resolver could produce: the classes defined under
`server/apps/webdav/resources/`. -/
inductive Resource where
  | folderCollection (path : Str)
  | fileResource (path : Str) (r : FileRec)
  | trashCollection
  | trashFileResource (r : FileRec)
  | newFileResource (path : Str)
deriving DecidableEq, Repr

/-- dav_provider.DjangoDAVProvider.get_resource_inst: validate the path,
answer the root with a folder, then try an exact live file match and a
live folder-prefix match; otherwise resolve to nothing.  No branch
consults the trash. -/
def get_resource_inst (uidStr : Str) (userId : Int) (recs : List FileRec)
    (path : Str) : Option Resource :=
  if !(validate_path path) then none
  else if is_root path then some (.folderCollection path)
  else
    let storagePath := to_storage_path uidStr path
    match objects_find recs (fun r => r.owner == userId && r.key == storagePath) with
    | some r => some (.fileResource path r)
    | none =>
      let folderPref := rstripSlash storagePath ++ ['/']
      if recs.any (fun r => !r.is_deleted && r.owner == userId
          && folderPref.isPrefixOf r.key) then
        some (.folderCollection path)
      else none

example :
    get_resource_inst "7".toList 7
      [⟨1, 7, "7/r.txt".toList, 3, [], [], true, some 100,
        "7/r.txt".toList, "r__x.txt".toList⟩]
      "/.Trash".toList = none := by decide
example :
    get_resource_inst "7".toList 7
      [⟨1, 7, "7/docs/a.txt".toList, 5, [], [], false, none, [], []⟩]
      "/docs/a.txt".toList
    = some (.fileResource "/docs/a.txt".toList
        ⟨1, 7, "7/docs/a.txt".toList, 5, [], [], false, none, [], []⟩) := by
  decide

/-- Concrete metadata functions used to evaluate the embedding at
specific inputs; no verified property constrains checksum or MIME
values, so any computable choice serves. -/
def mfZ : MetaFns :=
  ⟨fun _ => [], fun _ _ => "application/octet-stream".toList⟩

/-- Total size of an owner's expired trash records at the purge job's
cutoff derived from `now`. -/
def expiredSizes (st : SysState) (o : Int) (now : Int) : Nat :=
  ((st.records.filter (fun r =>
      r.owner == o
        && is_expired (now - (retention_days : Int) * 86400) r)).map
    (fun r => r.size_bytes)).sum

lemma find?_filter_keep {α : Type} (bs : List α) (p q : α → Bool)
    (h : ∀ a, q a = true → p a = true) :
    List.find? q (bs.filter p) = List.find? q bs := by
  induction bs with
  | nil => rfl
  | cons a tl ih =>
    rw [List.filter_cons]
    by_cases hp : p a = true
    · rw [if_pos hp]
      by_cases hq : q a = true
      · rw [List.find?_cons_of_pos _ hq, List.find?_cons_of_pos _ hq]
      · rw [List.find?_cons_of_neg _ (by simpa using hq),
          List.find?_cons_of_neg _ (by simpa using hq)]
        exact ih
    · rw [if_neg hp]
      have hq : q a = false := by
        cases hqa : q a
        · rfl
        · exact absurd (h a hqa) hp
      rw [List.find?_cons_of_neg _ (by simp [hq])]
      exact ih

lemma find?_map_pred {α : Type} (l : List α) (g : α → α) (q : α → Bool)
    (hg : ∀ a, q (g a) = q a) :
    List.find? q (l.map g) = (List.find? q l).map g := by
  induction l with
  | nil => rfl
  | cons a tl ih =>
    rw [List.map_cons]
    by_cases hq : q a = true
    · rw [List.find?_cons_of_pos _ (by rw [hg]; exact hq),
        List.find?_cons_of_pos _ hq]
      rfl
    · rw [List.find?_cons_of_neg _ (by rw [hg]; simpa using hq),
        List.find?_cons_of_neg _ (by simpa using hq)]
      exact ih

lemma blobLookup_storageDelete_self (bs : List (Str × Str)) (k : Str) :
    blobLookup (storageDelete bs k) k = none := by
  have hnone : List.find? (fun kv => kv.fst == k) (storageDelete bs k)
      = none := by
    rw [List.find?_eq_none]
    intro kv hkv
    have hmem := (List.mem_filter.mp hkv).2
    simp only [bne_iff_ne, ne_eq] at hmem
    simp [hmem]
  simp [blobLookup, hnone]

lemma blobLookup_storageDelete_ne (bs : List (Str × Str)) (k k' : Str)
    (h : k' ≠ k) :
    blobLookup (storageDelete bs k) k' = blobLookup bs k' := by
  unfold blobLookup storageDelete
  rw [find?_filter_keep]
  intro kv hkv
  simp only [beq_iff_eq] at hkv
  simp [hkv, h]

lemma blobLookup_storageDelete_none (bs : List (Str × Str)) (k k' : Str)
    (h : blobLookup bs k' = none) :
    blobLookup (storageDelete bs k) k' = none := by
  by_cases hk : k' = k
  · subst hk; exact blobLookup_storageDelete_self bs k'
  · rw [blobLookup_storageDelete_ne bs k k' hk]; exact h

lemma updateQuotaRow_owner_invariant (o : Int) (f : Quota → Quota)
    (hf : ∀ q, (f q).owner = q.owner) (a : Quota) (o' : Int) :
    ((if a.owner == o then f a else a).owner == o') = (a.owner == o') := by
  by_cases h : a.owner == o <;> simp [h, hf]

lemma quotaFind_updateQuotaRow (qs : List Quota) (o o' : Int)
    (f : Quota → Quota) (hf : ∀ q, (f q).owner = q.owner) :
    quotaFind (updateQuotaRow qs o f) o'
      = (quotaFind qs o').map (fun a => if a.owner == o then f a else a) := by
  unfold quotaFind updateQuotaRow
  exact find?_map_pred qs _ _ (fun a => updateQuotaRow_owner_invariant o f hf a o')

lemma quotaFind_increment_usage (qs : List Quota) (o : Int) (n : Nat)
    (q : Quota) (h : quotaFind qs o = some q) :
    quotaFind (increment_usage qs o n) o
      = some { q with used_bytes := q.used_bytes + n } := by
  have howner : (q.owner == o) = true := by
    have := List.find?_some h
    simpa [quotaFind] using this
  have ho : q.owner = o := by simpa using howner
  rw [increment_usage, h]
  show quotaFind (updateQuotaRow qs o
    (fun a => { a with used_bytes := a.used_bytes + n })) o = _
  rw [quotaFind_updateQuotaRow qs o o
    (fun a => { a with used_bytes := a.used_bytes + n }) (fun _ => rfl), h]
  simp [ho]

lemma quotaFind_increment_usage_ne (qs : List Quota) (o o' : Int) (n : Nat)
    (h : o' ≠ o) :
    quotaFind (increment_usage qs o n) o' = quotaFind qs o' := by
  rw [increment_usage]
  cases hq : quotaFind qs o with
  | none =>
    show quotaFind (updateQuotaRow (get_or_create_quota qs o).1 o
      (fun a => { a with used_bytes := n })) o' = _
    rw [quotaFind_updateQuotaRow _ o o'
      (fun a => { a with used_bytes := n }) (fun _ => rfl)]
    rw [get_or_create_quota, hq]
    simp only [quotaFind, List.find?_append]
    cases hq' : List.find? (fun q => q.owner == o') qs with
    | none =>
      have hrow : ((⟨o, default_quota_bytes, 0⟩ : Quota).owner == o') = false :=
        beq_eq_false_iff_ne.mpr (fun hh => h hh.symm)
      rw [List.find?_cons_of_neg _ (by simp [hrow]), List.find?_nil]
      rfl
    | some q' =>
      have howner : (q'.owner == o') = true := by
        simpa using List.find?_some hq'
      have ho' : q'.owner = o' := by simpa using howner
      have hne : q'.owner ≠ o := by rw [ho']; exact h
      simp [hne]
  | some q =>
    show quotaFind (updateQuotaRow qs o
      (fun a => { a with used_bytes := a.used_bytes + n })) o' = _
    rw [quotaFind_updateQuotaRow _ o o'
      (fun a => { a with used_bytes := a.used_bytes + n }) (fun _ => rfl)]
    cases hq' : quotaFind qs o' with
    | none => rfl
    | some q' =>
      have howner : (q'.owner == o') = true := by
        have := List.find?_some hq'
        simpa [quotaFind] using this
      have ho' : q'.owner = o' := by simpa using howner
      have hne : q'.owner ≠ o := by rw [ho']; exact h
      simp [hne]

lemma quotaFind_decrement_usage (qs : List Quota) (o : Int) (n : Nat)
    (q : Quota) (h : quotaFind qs o = some q) :
    quotaFind (decrement_usage qs o n) o
      = some { q with used_bytes := q.used_bytes - n } := by
  have howner : (q.owner == o) = true := by
    have := List.find?_some h
    simpa [quotaFind] using this
  rw [decrement_usage, h]
  show quotaFind (updateQuotaRow qs o
    (fun a => { a with used_bytes := a.used_bytes - n })) o = _
  rw [quotaFind_updateQuotaRow qs o o
    (fun a => { a with used_bytes := a.used_bytes - n }) (fun _ => rfl), h]
  have ho : q.owner = o := by simpa using howner
  simp [ho]

lemma quotaFind_decrement_usage_ne (qs : List Quota) (o o' : Int) (n : Nat)
    (h : o' ≠ o) :
    quotaFind (decrement_usage qs o n) o' = quotaFind qs o' := by
  rw [decrement_usage]
  cases hq : quotaFind qs o with
  | none => rfl
  | some q =>
    show quotaFind (updateQuotaRow qs o
      (fun a => { a with used_bytes := a.used_bytes - n })) o' = _
    rw [quotaFind_updateQuotaRow _ o o'
      (fun a => { a with used_bytes := a.used_bytes - n }) (fun _ => rfl)]
    cases hq' : quotaFind qs o' with
    | none => rfl
    | some q' =>
      have howner : (q'.owner == o') = true := by
        have := List.find?_some hq'
        simpa [quotaFind] using this
      have ho' : q'.owner = o' := by simpa using howner
      have hne : q'.owner ≠ o := by rw [ho']; exact h
      simp [hne]

lemma substrIn_iff (needle hay : Str) :
    substrIn needle hay = true ↔ needle <:+: hay := by
  induction hay with
  | nil =>
    simp [substrIn, List.isEmpty_iff, List.infix_nil]
  | cons a tl ih =>
    rw [substrIn]
    simp [List.isPrefixOf_iff_prefix, ih, List.infix_cons_iff]

lemma mem_infix_intercalate {seg sep : Str} {L : List Str} (h : seg ∈ L) :
    seg <:+: sep.intercalate L := by
  induction L with
  | nil => cases h
  | cons x xs ih =>
    cases xs with
    | nil =>
      have hx : seg = x := by simpa using h
      subst hx
      simp [List.intercalate]
    | cons y ys =>
      have heq : sep.intercalate (x :: y :: ys)
          = x ++ sep ++ sep.intercalate (y :: ys) := by
        simp [List.intercalate, List.intersperse]
      rw [heq]
      rcases List.mem_cons.mp h with hx | hmem
      · subst hx
        exact ((List.prefix_append seg (sep ++ sep.intercalate (y :: ys))).trans
          (by rw [List.append_assoc])).isInfix
      · obtain ⟨s, t, hst⟩ := ih hmem
        exact ⟨(x ++ sep) ++ s, t, by rw [← hst]; simp⟩

lemma mem_splitOn_infix {seg l : Str} {c : Char} (h : seg ∈ List.splitOn c l) :
    seg <:+: l := by
  have hjoin := List.intercalate_splitOn l c
  have hin : seg <:+: [c].intercalate (List.splitOn c l) :=
    mem_infix_intercalate h
  rwa [hjoin] at hin

/-- C7: the claim says `validate(webdav)` is false exactly for paths with
a `..` segment or a NUL byte, so that `/a..b.txt` validates as true.  On
the code `/a..b.txt` fails validation (the check is a substring test),
while the spec-side predicate accepts it: the claim is false at this
input. -/
theorem c7_validate_path_claim_cex :
    spec_validate_path "/a..b.txt".toList = true
      ∧ validate_path "/a..b.txt".toList = false :=
  ⟨by decide, by decide⟩

/-- C7 (amended): `validate_path` returns false exactly when the path
contains `..` as a contiguous substring anywhere (not only as a whole
slash-separated segment) or contains a NUL byte; in particular every
path the spec-side segment test rejects is also rejected by the code. -/
theorem c7_validate_path_substring_semantics (p : Str) :
    (validate_path p = false
      ↔ (substrIn ['.', '.'] p = true ∨ p.contains '\x00' = true))
  ∧ (spec_validate_path p = false → validate_path p = false) := by
  constructor
  · unfold validate_path
    by_cases hd : substrIn ['.', '.'] p
    · simp [hd]
    · simp [hd]
  · intro hspec
    unfold spec_validate_path at hspec
    by_cases hseg : (List.splitOn '/' p).contains ['.', '.']
    · have hmem : (['.', '.'] : Str) ∈ List.splitOn '/' p := by
        simpa [List.elem_iff] using hseg
      have hinf : (['.', '.'] : Str) <:+: p := mem_splitOn_infix hmem
      have hsub : substrIn ['.', '.'] p = true := (substrIn_iff _ _).mpr hinf
      unfold validate_path
      simp [hsub]
    · have hnul : p.contains '\x00' = true := by
        rcases Bool.and_eq_false_iff.mp hspec with hl | hr
        · exact absurd (by simpa using hl) hseg
        · simpa using hr
      unfold validate_path
      by_cases hd : substrIn ['.', '.'] p
      · simp [hd]
      · have hmem : '\x00' ∈ p := by
          simpa [List.elem_iff] using hnul
        simp [hd, hmem]

/-- C7 witness: the theorem applied at `/../x`, a path with a real `..`
segment, discharging the spec-side hypothesis. -/
theorem c7_validate_path_substring_semantics_witness :
    spec_validate_path "/../x".toList = false
      ∧ validate_path "/../x".toList = false :=
  ⟨by decide,
    (c7_validate_path_substring_semantics "/../x".toList).2 (by decide)⟩

/-- C6: the claim says `adjust(owner, old, new)` raises QuotaExceeded when
growing past the limit.  At owner 7 with `limit=100, used=90`, growing
from 0 to 50 bytes simply sets `used := 140` with no error, while the
spec-side adjust (check + add) fails with QuotaExceeded(100, 90, 50): the
claim is false at this input. -/
theorem c6_adjust_usage_claim_cex :
    adjust_usage [⟨7, 100, 90⟩] 7 0 50 = [⟨7, 100, 140⟩]
      ∧ adjust_usage_spec [⟨7, 100, 90⟩] 7 0 50 = .error ⟨100, 90, 50⟩ :=
  ⟨by decide, rfl⟩

/-- C6 (amended): `adjust_usage` never checks the limit.  Growing adds
the positive delta unconditionally, shrinking subtracts the magnitude
clamped at zero, equal sizes change nothing, and other owners' rows are
untouched. -/
theorem c6_adjust_usage_no_limit_check (qs : List Quota) (o : Int)
    (q : Quota) (oldSize newSize : Nat)
    (h : quotaFind qs o = some q) :
    (oldSize < newSize →
      quotaFind (adjust_usage qs o oldSize newSize) o
        = some { q with used_bytes := q.used_bytes + (newSize - oldSize) })
  ∧ (newSize < oldSize →
      quotaFind (adjust_usage qs o oldSize newSize) o
        = some { q with used_bytes := q.used_bytes - (oldSize - newSize) })
  ∧ (newSize = oldSize → adjust_usage qs o oldSize newSize = qs)
  ∧ (∀ o', o' ≠ o →
      quotaFind (adjust_usage qs o oldSize newSize) o' = quotaFind qs o') := by
  refine ⟨?_, ?_, ?_, ?_⟩
  · intro hlt
    have h1 : ((newSize : Int) - (oldSize : Int) > 0) := by omega
    simp only [adjust_usage, if_pos h1]
    exact quotaFind_increment_usage qs o _ q h
  · intro hlt
    have h1 : ¬((newSize : Int) - (oldSize : Int) > 0) := by omega
    have h2 : ((newSize : Int) - (oldSize : Int) < 0) := by omega
    simp only [adjust_usage, if_neg h1, if_pos h2]
    exact quotaFind_decrement_usage qs o _ q h
  · intro heq
    have h1 : ¬((newSize : Int) - (oldSize : Int) > 0) := by omega
    have h2 : ¬((newSize : Int) - (oldSize : Int) < 0) := by omega
    simp only [adjust_usage, if_neg h1, if_neg h2]
  · intro o' ho'
    by_cases h1 : ((newSize : Int) - (oldSize : Int) > 0)
    · simp only [adjust_usage, if_pos h1]
      exact quotaFind_increment_usage_ne _ o o' _ ho'
    · by_cases h2 : ((newSize : Int) - (oldSize : Int) < 0)
      · simp only [adjust_usage, if_neg h1, if_pos h2]
        exact quotaFind_decrement_usage_ne _ o o' _ ho'
      · simp only [adjust_usage, if_neg h1, if_neg h2]

/-- C6 witness: the amended theorem applied at owner 7 with limit 100,
used 90, growing from 0 to 50. -/
theorem c6_adjust_usage_no_limit_check_witness :
    quotaFind [⟨7, 100, 90⟩] 7 = some ⟨7, 100, 90⟩
  ∧ (0 : Nat) < 50
  ∧ quotaFind (adjust_usage [⟨7, 100, 90⟩] 7 0 50) 7 = some ⟨7, 100, 140⟩ := by
  refine ⟨by decide, by decide, ?_⟩
  have h := (c6_adjust_usage_no_limit_check [⟨7, 100, 90⟩] 7 ⟨7, 100, 90⟩
    0 50 (by decide)).1 (by decide)
  exact h

/-- C1: the upload path never consults the quota.  Evaluated at the input
of the repository's own quota tests (limit 100, used 90, a 50-byte
payload to a fresh path): the upload succeeds, a record of size 50 is
created, and `used_bytes` stays 90 — no QuotaExceeded is raised before
storing and no `quota.add` happens in the insert transaction. -/
theorem c1_upload_file_ignores_quota :
    (upload_file mfZ 1 "1/test.txt".toList (List.replicate 50 'a')
        ⟨[], [], [⟨1, 100, 90⟩], 1⟩).2
      = .ok ⟨1, 1, "1/test.txt".toList, 50,
          "application/octet-stream".toList, [], false, none, [], []⟩
  ∧ (upload_file mfZ 1 "1/test.txt".toList (List.replicate 50 'a')
        ⟨[], [], [⟨1, 100, 90⟩], 1⟩).1.quotas
      = [⟨1, 100, 90⟩]
  ∧ (upload_file mfZ 1 "1/test.txt".toList (List.replicate 50 'a')
        ⟨[], [], [⟨1, 100, 90⟩], 1⟩).1.records.length = 1 :=
  ⟨rfl, by decide, by decide⟩

/-- C2: the claim says DELETE on a live file's path soft-deletes, leaving
the record with `is_deleted = true` and the file listed under `/.Trash/`.
On the code, deleting the live file record 1 of owner 7 removes the row
entirely (and the blob with it), and the trash listing stays empty: the
claim is false at this input. -/
theorem c2_file_delete_claim_cex :
    ((delete_file ⟨[⟨1, 7, "7/docs/a.txt".toList, 5, [], [], false, none,
        [], []⟩], [("7/docs/a.txt".toList, "hello".toList)],
        [⟨7, 1000, 5⟩], 2⟩ 1).1.records.any (fun r => r.fid == 1)) = false
  ∧ list_trash (delete_file ⟨[⟨1, 7, "7/docs/a.txt".toList, 5, [], [],
        false, none, [], []⟩], [("7/docs/a.txt".toList, "hello".toList)],
        [⟨7, 1000, 5⟩], 2⟩ 1).1.records 7 = []
  ∧ blobLookup (delete_file ⟨[⟨1, 7, "7/docs/a.txt".toList, 5, [], [],
        false, none, [], []⟩], [("7/docs/a.txt".toList, "hello".toList)],
        [⟨7, 1000, 5⟩], 2⟩ 1).1.blobs "7/docs/a.txt".toList = none := by
  refine ⟨by decide, by decide, by decide⟩

/-- C2 (amended): FileResource.delete routes to delete_file, a hard
delete — the row is removed from the database (the post_delete signal
removes the blob), the quota rows are untouched, and no trash listing
changes; soft_delete_file exists in trash_operations but is not invoked
by the WebDAV file resource. -/
theorem c2_file_delete_hard_deletes (st : SysState) (fileId : Nat)
    (r : FileRec)
    (hfind : objects_find st.records (fun x => x.fid == fileId) = some r)
    (hids : (st.records.map (fun x => x.fid)).Nodup) :
    (∀ x ∈ (delete_file st fileId).1.records, x.fid ≠ fileId)
  ∧ blobLookup (delete_file st fileId).1.blobs r.key = none
  ∧ (delete_file st fileId).1.quotas = st.quotas
  ∧ (∀ o, list_trash (delete_file st fileId).1.records o
      = list_trash st.records o) := by
  have hr_mem : r ∈ st.records := by
    unfold objects_find at hfind
    exact List.mem_of_find?_eq_some hfind
  have hprop := List.find?_some hfind
  have hlive : r.is_deleted = false := by
    rcases Bool.and_eq_true_iff.mp hprop with ⟨hl, _⟩
    simpa using hl
  have hfid : r.fid = fileId := by
    rcases Bool.and_eq_true_iff.mp hprop with ⟨_, hrr⟩
    simpa using hrr
  simp only [delete_file, hfind]
  refine ⟨?_, ?_, ?_⟩
  · intro x hx
    have := (List.mem_filter.mp hx).2
    simpa using this
  · exact blobLookup_storageDelete_self st.blobs r.key
  · refine ⟨trivial, ?_⟩
    intro o
    unfold list_trash
    have hfilters :
        (st.records.filter (fun x => x.fid != fileId)).filter
            (fun x => x.owner == o && x.is_deleted)
          = st.records.filter (fun x => x.owner == o && x.is_deleted) := by
      rw [List.filter_filter]
      apply List.filter_congr
      intro x hx
      by_cases htrash : (x.owner == o && x.is_deleted) = true
      · have hxdel : x.is_deleted = true :=
          (Bool.and_eq_true_iff.mp htrash).2
        have hxne : x.fid ≠ fileId := by
          intro heq
          have hx_eq_r : x = r :=
            List.inj_on_of_nodup_map hids hx hr_mem (by rw [heq, hfid])
          rw [hx_eq_r] at hxdel
          rw [hlive] at hxdel
          exact Bool.false_ne_true hxdel
        simp [htrash, hxne]
      · simp only [Bool.not_eq_true] at htrash
        simp [htrash]
    rw [hfilters]

/-- C2 witness: the amended theorem applied to a single live record of
owner 7. -/
theorem c2_file_delete_hard_deletes_witness :
    objects_find [(⟨1, 7, "7/docs/a.txt".toList, 5, [], [], false, none,
        [], []⟩ : FileRec)] (fun x => x.fid == 1)
      = some ⟨1, 7, "7/docs/a.txt".toList, 5, [], [], false, none, [], []⟩
  ∧ ([(⟨1, 7, "7/docs/a.txt".toList, 5, [], [], false, none, [], []⟩ :
        FileRec)].map (fun x => x.fid)).Nodup
  ∧ (∀ x ∈ (delete_file ⟨[⟨1, 7, "7/docs/a.txt".toList, 5, [], [], false,
        none, [], []⟩], [("7/docs/a.txt".toList, "hello".toList)],
        [⟨7, 1000, 5⟩], 2⟩ 1).1.records, x.fid ≠ 1) :=
  ⟨by decide, by decide,
    (c2_file_delete_hard_deletes
      ⟨[⟨1, 7, "7/docs/a.txt".toList, 5, [], [], false, none, [], []⟩],
        [("7/docs/a.txt".toList, "hello".toList)], [⟨7, 1000, 5⟩], 2⟩
      1 ⟨1, 7, "7/docs/a.txt".toList, 5, [], [], false, none, [], []⟩
      (by decide) (by decide)).1⟩

/-- C10: closing the write stream of an existing File resource with zero
buffered bytes performs no update at all (the state is returned
unchanged), whereas closing a NewFile write stream with zero buffered
bytes creates a zero-byte record at the mapped storage path, leaving the
quota rows unchanged. -/
theorem c10_empty_close_behavior (mf : MetaFns) (st : SysState)
    (fileId : Nat) (commitFails : Bool) (uidStr : Str) (userId : Int)
    (webdavPath : Str)
    (hval : validate_storage_path userId
      (to_storage_path uidStr webdavPath) = true)
    (hfree : blobLookup st.blobs (to_storage_path uidStr webdavPath) = none)
    (hnodup : st.records.any (fun r => r.owner == userId
        && r.key == to_storage_path uidStr webdavPath) = false) :
    upload_buffer_close mf st fileId [] commitFails = (st, true)
  ∧ (new_file_buffer_close mf uidStr userId st webdavPath []).2
      = .ok ⟨st.next_id, userId, to_storage_path uidStr webdavPath, 0,
          mf.mimeFn [] (extract_filename (to_storage_path uidStr webdavPath)),
          mf.hashFn [], false, none, [], []⟩
  ∧ (new_file_buffer_close mf uidStr userId st webdavPath []).1.records
      = st.records ++ [⟨st.next_id, userId,
          to_storage_path uidStr webdavPath, 0,
          mf.mimeFn [] (extract_filename (to_storage_path uidStr webdavPath)),
          mf.hashFn [], false, none, [], []⟩]
  ∧ (new_file_buffer_close mf uidStr userId st webdavPath []).1.quotas
      = st.quotas := by
  refine ⟨rfl, ?_, ?_, ?_⟩ <;>
    simp [new_file_buffer_close, upload_file, hval, storageSave, hfree,
      hnodup, List.length_nil]

/-- C10 witness: the theorem applied for user 7 writing to `/fresh.txt`
over an empty state. -/
theorem c10_empty_close_behavior_witness :
    validate_storage_path 7 (to_storage_path "7".toList "/fresh.txt".toList)
      = true
  ∧ blobLookup ([] : List (Str × Str))
      (to_storage_path "7".toList "/fresh.txt".toList) = none
  ∧ (new_file_buffer_close mfZ "7".toList 7 ⟨[], [], [], 1⟩
      "/fresh.txt".toList []).1.records
      = [⟨1, 7, "7/fresh.txt".toList, 0,
          "application/octet-stream".toList, [], false, none, [], []⟩] := by
  refine ⟨by decide, by decide, ?_⟩
  have h := (c10_empty_close_behavior mfZ ⟨[], [], [], 1⟩ 0 false
    "7".toList 7 "/fresh.txt".toList (by decide) (by decide) (by decide)).2.2.1
  simpa using h

lemma blobLookup_cons_ne (k c : Str) (bs : List (Str × Str)) (k' : Str)
    (h : k ≠ k') :
    blobLookup ((k, c) :: bs) k' = blobLookup bs k' := by
  unfold blobLookup
  rw [List.find?_cons_of_neg]
  simp [h]

/-- C5: the claim says every blob key written for principal P begins with
`"{P.id}/"`.  For P.id = 123 the storage path `0123/file.txt` passes
validation (Python `int("0123") = 123`), the blob is written under that
key, and the key does not begin with `123/`: the claim is false at this
input. -/
theorem c5_owner_digits_claim_cex :
    validate_storage_path 123 "0123/file.txt".toList = true
  ∧ (upload_file mfZ 123 "0123/file.txt".toList "x".toList
      ⟨[], [], [], 1⟩).2
      = .ok ⟨1, 123, "0123/file.txt".toList, 1,
          "application/octet-stream".toList, [], false, none, [], []⟩
  ∧ blobLookup (upload_file mfZ 123 "0123/file.txt".toList "x".toList
      ⟨[], [], [], 1⟩).1.blobs "0123/file.txt".toList = some "x".toList
  ∧ "123/".toList.isPrefixOf "0123/file.txt".toList = false :=
  ⟨by decide, rfl, by decide, by decide⟩

/-- C5 (amended): validation happens before any blob write — an upload
whose storage path fails validate_storage_path returns a validation error
with the state untouched; a path that passes has a first component that
parses (as a Python integer, leading zeros and sign allowed) to exactly
P.id, and the blob is written under that path.  The key therefore need
not literally begin with `"{P.id}/"` (for example `0123/...` is accepted
for id 123). -/
theorem c5_validate_guards_blob_writes (mf : MetaFns) (userId : Int)
    (storagePath content : Str) (st : SysState) :
    (validate_storage_path userId storagePath = false →
      upload_file mf userId storagePath content st
        = (st, .error .validationError))
  ∧ (validate_storage_path userId storagePath = true →
      ∃ fc rest, pathParts storagePath = fc :: rest
        ∧ int_of_str fc = some userId)
  ∧ (validate_storage_path userId storagePath = true →
      blobLookup st.blobs storagePath = none →
      st.records.any (fun r => r.owner == userId
        && r.key == storagePath) = false →
      (upload_file mf userId storagePath content st).1.blobs
        = (storagePath, content) :: st.blobs) := by
  refine ⟨?_, ?_, ?_⟩
  · intro hv
    simp [upload_file, hv]
  · intro hv
    unfold validate_storage_path at hv
    by_cases he : storagePath.isEmpty
    · simp [he] at hv
    · rw [if_neg (by simp [he])] at hv
      cases hp : pathParts storagePath with
      | nil => rw [hp] at hv; exact absurd hv (Bool.false_ne_true)
      | cons fc rest =>
        rw [hp] at hv
        have hv' : (match int_of_str fc with
            | none => false
            | some v => v == userId) = true := hv
        cases hi : int_of_str fc with
        | none => rw [hi] at hv'; exact absurd hv' (Bool.false_ne_true)
        | some v =>
          rw [hi] at hv'
          refine ⟨fc, rest, rfl, ?_⟩
          rw [hi]
          have hveq : v = userId := by simpa using hv'
          rw [hveq]
  · intro hv hfree hnorec
    simp [upload_file, hv, storageSave, hfree, hnorec]

/-- C5 witness: the theorem applied at the empty path (rejected before
any write) and at the canonical path `7/a.txt` of user 7. -/
theorem c5_validate_guards_blob_writes_witness :
    validate_storage_path 7 [] = false
  ∧ upload_file mfZ 7 [] "x".toList ⟨[], [], [], 1⟩
      = (⟨[], [], [], 1⟩, .error .validationError)
  ∧ validate_storage_path 7 "7/a.txt".toList = true
  ∧ (∃ fc rest, pathParts "7/a.txt".toList = fc :: rest
      ∧ int_of_str fc = some 7) :=
  ⟨by decide,
    (c5_validate_guards_blob_writes mfZ 7 [] "x".toList
      ⟨[], [], [], 1⟩).1 (by decide),
    by decide,
    (c5_validate_guards_blob_writes mfZ 7 "7/a.txt".toList "x".toList
      ⟨[], [], [], 1⟩).2.1 (by decide)⟩

/-- C4: when the metadata commit of an overwrite fails, the rollback
leaves every record unchanged (so a read still returns the original
content and size/mime/sha256), deletes the temporary blob at
`old_key + ".tmp"`, keeps the blob at the original key intact, and leaves
the quota rows untouched. -/
theorem c4_overwrite_rollback (mf : MetaFns) (st : SysState) (fileId : Nat)
    (content : Str) (r : FileRec)
    (hfind : objects_find st.records (fun x => x.fid == fileId) = some r)
    (htmp : blobLookup st.blobs (r.key ++ ".tmp".toList) = none) :
    (update_file_content mf st fileId content true).1.records = st.records
  ∧ (update_file_content mf st fileId content true).1.quotas = st.quotas
  ∧ blobLookup (update_file_content mf st fileId content true).1.blobs r.key
      = blobLookup st.blobs r.key
  ∧ blobLookup (update_file_content mf st fileId content true).1.blobs
      (r.key ++ ".tmp".toList) = none := by
  have hne : r.key ≠ r.key ++ ".tmp".toList := by
    intro h
    have := congrArg List.length h
    simp at this
  have htmp' : blobLookup st.blobs (r.key ++ ['.', 't', 'm', 'p']) = none :=
    htmp
  have hstep : update_file_content mf st fileId content true
      = ({ st with blobs := storageDelete ((r.key ++ ".tmp".toList, content)
            :: st.blobs) (r.key ++ ".tmp".toList) }, false) := by
    simp [update_file_content, hfind, upload_and_update_file,
      storageSave, htmp']
  rw [hstep]
  refine ⟨rfl, rfl, ?_, ?_⟩
  · rw [blobLookup_storageDelete_ne _ _ _ hne]
    rw [blobLookup_cons_ne _ _ _ _ (fun h => hne h.symm)]
  · exact blobLookup_storageDelete_self _ _

/-- C4 witness: the theorem applied to a one-file state of owner 7 with a
fresh temp key. -/
theorem c4_overwrite_rollback_witness :
    objects_find [(⟨1, 7, "7/q.txt".toList, 1, [], [], false, none, [],
        []⟩ : FileRec)] (fun x => x.fid == 1)
      = some ⟨1, 7, "7/q.txt".toList, 1, [], [], false, none, [], []⟩
  ∧ blobLookup [("7/q.txt".toList, "X".toList)]
      ("7/q.txt".toList ++ ".tmp".toList) = none
  ∧ blobLookup (update_file_content mfZ
      ⟨[⟨1, 7, "7/q.txt".toList, 1, [], [], false, none, [], []⟩],
        [("7/q.txt".toList, "X".toList)], [⟨7, 1000, 1⟩], 2⟩
      1 "YY".toList true).1.blobs "7/q.txt".toList
      = blobLookup [("7/q.txt".toList, "X".toList)] "7/q.txt".toList :=
  ⟨by decide, by decide,
    (c4_overwrite_rollback mfZ
      ⟨[⟨1, 7, "7/q.txt".toList, 1, [], [], false, none, [], []⟩],
        [("7/q.txt".toList, "X".toList)], [⟨7, 1000, 1⟩], 2⟩
      1 "YY".toList
      ⟨1, 7, "7/q.txt".toList, 1, [], [], false, none, [], []⟩
      (by decide) (by decide)).2.2.1⟩

lemma lstrip_eq_self {s : Str} (h : s.head? ≠ some '/') :
    lstripSlash s = s := by
  cases s with
  | nil => rfl
  | cons a t =>
    have ha : (a == '/') = false := by
      simp only [List.head?_cons] at h
      simp only [beq_eq_false_iff_ne, ne_eq]
      exact fun hh => h (by rw [hh])
    simp [lstripSlash, List.dropWhile_cons, ha]

lemma rstrip_eq_self {s : Str} (h : s.getLast? ≠ some '/') :
    rstripSlash s = s := by
  have hh : s.reverse.head? ≠ some '/' := by
    rw [List.head?_reverse]; exact h
  unfold rstripSlash
  have : s.reverse.dropWhile (· == '/') = s.reverse := lstrip_eq_self hh
  rw [this, List.reverse_reverse]

lemma head?_dropWhile (p : Char → Bool) (s : Str) (a : Char)
    (h : (s.dropWhile p).head? = some a) : p a = false := by
  induction s with
  | nil => simp [List.dropWhile] at h
  | cons b t ih =>
    rw [List.dropWhile_cons] at h
    by_cases hb : p b = true
    · rw [if_pos hb] at h; exact ih h
    · rw [if_neg hb] at h
      simp only [List.head?_cons, Option.some.injEq] at h
      rw [← h]
      simpa using hb

lemma head?_lstrip (s : Str) (a : Char)
    (h : (lstripSlash s).head? = some a) : (a == '/') = false :=
  head?_dropWhile _ s a h

lemma getLast?_rstrip (s : Str) (a : Char)
    (h : (rstripSlash s).getLast? = some a) : (a == '/') = false := by
  unfold rstripSlash at h
  rw [List.getLast?_reverse] at h
  exact head?_dropWhile _ s.reverse a h

lemma rstrip_is_pref_of_self (s : Str) : rstripSlash s <+: s := by
  unfold rstripSlash
  rw [← List.reverse_suffix]
  simp only [List.reverse_reverse]
  exact List.dropWhile_suffix _

lemma head?_of_pref {l s : Str} (h : l <+: s) (hne : l ≠ []) :
    l.head? = s.head? := by
  obtain ⟨t, rfl⟩ := h
  cases l with
  | nil => exact absurd rfl hne
  | cons a w => simp

lemma head?_strip (q : Str) (a : Char)
    (h : (stripSlash q).head? = some a) : (a == '/') = false := by
  unfold stripSlash at h
  have hne : rstripSlash (lstripSlash q) ≠ [] := by
    intro hnil; rw [hnil] at h; simp at h
  rw [head?_of_pref (rstrip_is_pref_of_self _) hne] at h
  exact head?_lstrip q a h

lemma getLast?_strip (q : Str) (a : Char)
    (h : (stripSlash q).getLast? = some a) : (a == '/') = false :=
  getLast?_rstrip _ a h

lemma strip_eq_self {s : Str} (h1 : s.head? ≠ some '/')
    (h2 : s.getLast? ≠ some '/') : stripSlash s = s := by
  unfold stripSlash
  rw [lstrip_eq_self h1, rstrip_eq_self h2]

lemma lstrip_eq_nil_iff {s : Str} :
    lstripSlash s = [] ↔ ∀ c ∈ s, c = '/' := by
  unfold lstripSlash
  rw [List.dropWhile_eq_nil_iff]
  constructor
  · intro h c hc; simpa using h c hc
  · intro h c hc; simpa using h c hc

lemma rstrip_eq_nil_iff {s : Str} :
    rstripSlash s = [] ↔ ∀ c ∈ s, c = '/' := by
  unfold rstripSlash
  constructor
  · intro h c hc
    have hd : s.reverse.dropWhile (· == '/') = [] :=
      List.reverse_eq_nil_iff.mp h
    rw [List.dropWhile_eq_nil_iff] at hd
    have := hd c (by simpa using hc)
    simpa using this
  · intro h
    have : s.reverse.dropWhile (· == '/') = [] := by
      rw [List.dropWhile_eq_nil_iff]
      intro c hc
      simpa using h c (by simpa using hc)
    rw [this, List.reverse_nil]

lemma strip_eq_nil_imp {s : Str} (h : stripSlash s = []) :
    ∀ c ∈ s, c = '/' := by
  unfold stripSlash at h
  rw [rstrip_eq_nil_iff] at h
  have hnil : lstripSlash s = [] := by
    cases hl : lstripSlash s with
    | nil => rfl
    | cons a t =>
      have ha := head?_lstrip s a (by rw [hl]; rfl)
      have hmem : a ∈ lstripSlash s := by
        rw [hl]; exact List.mem_cons_self a t
      have haslash := h a hmem
      rw [haslash] at ha
      simp at ha
  exact lstrip_eq_nil_iff.mp hnil

lemma head?_ne_of_not_mem {s : Str} {c : Char} (h : c ∉ s) :
    s.head? ≠ some c := by
  cases s with
  | nil => simp
  | cons a t =>
    simp only [List.head?_cons, ne_eq, Option.some.injEq]
    intro hac
    exact h (by rw [hac]; exact List.mem_cons_self c t)

lemma getLast?_ne_of_not_mem {s : Str} {c : Char} (h : c ∉ s) :
    s.getLast? ≠ some c := by
  rw [← List.head?_reverse]
  apply head?_ne_of_not_mem
  simpa using h

lemma strip_append_slash (uid sq : Str) (h1 : uid ≠ [])
    (h2 : '/' ∉ uid) (h3 : sq ≠ []) (h4 : sq.getLast? ≠ some '/') :
    stripSlash (uid ++ '/' :: sq) = uid ++ '/' :: sq := by
  apply strip_eq_self
  · rw [← head?_of_pref (List.prefix_append uid ('/' :: sq)) h1]
    exact head?_ne_of_not_mem h2
  · rw [List.getLast?_append_of_ne_nil uid (by simp)]
    show (['/'] ++ sq).getLast? ≠ some '/'
    rw [List.getLast?_append_of_ne_nil ['/'] h3]
    exact h4

lemma strip_uid_eq {uid : Str} (h2 : '/' ∉ uid) : stripSlash uid = uid :=
  strip_eq_self (head?_ne_of_not_mem h2) (getLast?_ne_of_not_mem h2)

lemma append_cons_ne_self (uid sq : Str) :
    uid ++ '/' :: sq ≠ uid := by
  intro heq
  have := congrArg List.length heq
  simp at this

/-- C8: the claim also quantifies the key round-trip over non-canonical
keys of P.  For P with id string `1`, the key `1//a` carries the owner
prefix `1/`, yet `to_key(to_webdav(k))` collapses the doubled separator
to `1/a ≠ k`: the claim is false at this input. -/
theorem c8_key_round_trip_cex :
    to_storage_path "1".toList (to_webdav_path "1".toList "1//a".toList)
      = "1/a".toList
  ∧ "1//a".toList ≠ "1/a".toList
  ∧ "1/".toList.isPrefixOf "1//a".toList = true :=
  ⟨by decide, by decide, by decide⟩

/-- C8 (amended): for any user-id string (non-empty, slash-free) the
webdav-to-key round-trip normalizes every path —
`to_webdav(to_key(q)) = "/" ++ strip(q)` — and the key-to-webdav
round-trip is the identity exactly on canonical keys: the bare user-id
root key, and keys `uid ++ "/" ++ rest` whose remainder is non-empty and
has no leading or trailing separator. -/
theorem c8_path_key_round_trips (uid : Str) (h1 : uid ≠ [])
    (h2 : '/' ∉ uid) :
    (∀ q, to_webdav_path uid (to_storage_path uid q) = normalizePath q)
  ∧ to_storage_path uid (to_webdav_path uid uid) = uid
  ∧ (∀ rest, rest ≠ [] → rest.head? ≠ some '/' →
      rest.getLast? ≠ some '/' →
      to_storage_path uid (to_webdav_path uid (uid ++ '/' :: rest))
        = uid ++ '/' :: rest) := by
  have huid : stripSlash uid = uid := strip_uid_eq h2
  refine ⟨?_, ?_, ?_⟩
  · intro q
    unfold to_storage_path
    by_cases hq : stripSlash q = []
    · rw [if_pos hq]
      unfold to_webdav_path normalizePath
      rw [huid, if_pos rfl, hq]
    · rw [if_neg hq]
      have hlast : (stripSlash q).getLast? ≠ some '/' := by
        intro hc
        have := getLast?_strip q '/' hc
        simp at this
      have hstr : stripSlash (uid ++ '/' :: stripSlash q)
          = uid ++ '/' :: stripSlash q :=
        strip_append_slash uid _ h1 h2 hq hlast
      unfold to_webdav_path normalizePath
      rw [hstr, if_neg (append_cons_ne_self uid _)]
      have hpref : ((uid ++ ['/']).isPrefixOf
          (uid ++ '/' :: stripSlash q)) = true := by
        rw [List.isPrefixOf_iff_prefix]
        exact ⟨stripSlash q, by simp⟩
      rw [if_pos hpref]
      have hlen : uid.length + 1 = (uid ++ ['/']).length := by simp
      have hdecomp : uid ++ '/' :: stripSlash q
          = (uid ++ ['/']) ++ stripSlash q := by simp
      rw [hdecomp, hlen, List.drop_left]
  · unfold to_webdav_path
    rw [huid, if_pos rfl]
    rfl
  · intro rest hne hh hl
    have hstr : stripSlash (uid ++ '/' :: rest) = uid ++ '/' :: rest :=
      strip_append_slash uid rest h1 h2 hne hl
    unfold to_webdav_path
    rw [hstr, if_neg (append_cons_ne_self uid rest)]
    have hpref : ((uid ++ ['/']).isPrefixOf (uid ++ '/' :: rest)) = true := by
      rw [List.isPrefixOf_iff_prefix]
      exact ⟨rest, by simp⟩
    rw [if_pos hpref]
    have hlen : uid.length + 1 = (uid ++ ['/']).length := by simp
    have hdecomp : uid ++ '/' :: rest = (uid ++ ['/']) ++ rest := by simp
    rw [hdecomp, hlen, List.drop_left]
    unfold to_storage_path
    have hlstrip : lstripSlash ('/' :: rest) = rest := by
      unfold lstripSlash
      rw [List.dropWhile_cons, if_pos (by simp)]
      have : rest.dropWhile (· == '/') = rest := lstrip_eq_self hh
      exact this
    have hstrip : stripSlash ('/' :: rest) = rest := by
      unfold stripSlash
      rw [hlstrip]
      exact rstrip_eq_self hl
    rw [hstrip, if_neg hne]
    exact hdecomp

/-- C8 witness: the amended theorem applied for user-id string `7` to the
path `/docs/a.txt` and the canonical key `7/a`. -/
theorem c8_path_key_round_trips_witness :
    ("7".toList ≠ ([] : Str))
  ∧ ('/' ∉ "7".toList)
  ∧ to_webdav_path "7".toList (to_storage_path "7".toList
      "/docs/a.txt".toList) = normalizePath "/docs/a.txt".toList
  ∧ to_storage_path "7".toList (to_webdav_path "7".toList
      ("7".toList ++ '/' :: "a".toList)) = "7".toList ++ '/' :: "a".toList :=
  ⟨by decide, by decide,
    (c8_path_key_round_trips "7".toList (by decide) (by decide)).1
      "/docs/a.txt".toList,
    (c8_path_key_round_trips "7".toList (by decide) (by decide)).2.2
      "a".toList (by decide) (by decide) (by decide)⟩

lemma is_trash_root_not_root {p : Str} (h : is_trash_root p = true) :
    is_root p = false := by
  unfold is_root
  cases hs : stripSlash p with
  | nil =>
    exfalso
    have hall := strip_eq_nil_imp hs
    have hr : rstripSlash p = [] := rstrip_eq_nil_iff.mpr hall
    unfold is_trash_root at h
    rw [hr] at h
    exact absurd h (by decide)
  | cons a t => simp [hs]

/-- C3: the claim says resolving `/.Trash` yields a TrashRoot resource.
For user 7 holding one trashed record, the provider resolves `/.Trash`
to nothing at all (it has no trash branch), even though the path mapper
recognises the path as the trash root: the claim is false at this
input. -/
theorem c3_trash_root_claim_cex :
    get_resource_inst "7".toList 7
      [⟨1, 7, "7/r.txt".toList, 3, [], [], true, some 100,
        "7/r.txt".toList, "r__x.txt".toList⟩]
      "/.Trash".toList = none
  ∧ is_trash_root "/.Trash".toList = true :=
  ⟨by decide, by decide⟩

/-- C3 (amended): the resolver never produces the trash resource kinds
(TrashCollection, TrashFileResource) nor a NewFileResource — its only
outputs are folders, live files, or nothing — and a trash-root path with
no live record at or under its mapped storage prefix resolves to none.
The TrashCollection class itself (list via list_trash, empty-trash via
DELETE) exists but is unreachable from the resolver. -/
theorem c3_resolver_has_no_trash_branch (uidStr : Str) (userId : Int)
    (recs : List FileRec) (path : Str) :
    (∀ res, get_resource_inst uidStr userId recs path = some res →
      res ≠ .trashCollection
        ∧ (∀ r, res ≠ .trashFileResource r)
        ∧ (∀ p', res ≠ .newFileResource p'))
  ∧ (is_trash_root path = true →
      validate_path path = true →
      objects_find recs (fun r => r.owner == userId
        && r.key == to_storage_path uidStr path) = none →
      recs.any (fun r => !r.is_deleted && r.owner == userId
        && (rstripSlash (to_storage_path uidStr path) ++ ['/']).isPrefixOf
            r.key) = false →
      get_resource_inst uidStr userId recs path = none) := by
  constructor
  · intro res hres
    unfold get_resource_inst at hres
    by_cases hv : validate_path path
    · rw [if_neg (by simp [hv])] at hres
      by_cases hr : is_root path
      · rw [if_pos (by simpa using hr)] at hres
        cases hres
        exact ⟨by simp, by simp, by simp⟩
      · rw [if_neg (by simpa using hr)] at hres
        have hres2 : (match objects_find recs (fun r => r.owner == userId
            && r.key == to_storage_path uidStr path) with
          | some r => some (Resource.fileResource path r)
          | none =>
            if (recs.any fun r => !r.is_deleted && r.owner == userId
                && List.isPrefixOf (rstripSlash (to_storage_path uidStr
                  path) ++ ['/']) r.key) = true then
              some (Resource.folderCollection path)
            else none) = some res := hres
        cases hfind : objects_find recs (fun r => r.owner == userId
            && r.key == to_storage_path uidStr path) with
        | some r =>
          rw [hfind] at hres2
          cases hres2
          exact ⟨by simp, by simp, by simp⟩
        | none =>
          rw [hfind] at hres2
          by_cases hany : recs.any (fun r => !r.is_deleted
              && r.owner == userId
              && (rstripSlash (to_storage_path uidStr path)
                  ++ ['/']).isPrefixOf r.key)
          · rw [if_pos (by simpa using hany)] at hres2
            cases hres2
            exact ⟨by simp, by simp, by simp⟩
          · rw [if_neg (by simpa using hany)] at hres2
            cases hres2
    · rw [if_pos (by simp [hv])] at hres
      cases hres
  · intro htr hval hfind hany
    have hroot := is_trash_root_not_root htr
    show (if !(validate_path path) then none
      else if is_root path then some (Resource.folderCollection path)
      else
        match objects_find recs (fun r => r.owner == userId
            && r.key == to_storage_path uidStr path) with
        | some r => some (Resource.fileResource path r)
        | none =>
          if (recs.any fun r => !r.is_deleted && r.owner == userId
              && List.isPrefixOf (rstripSlash (to_storage_path uidStr path)
                ++ ['/']) r.key) = true then
            some (Resource.folderCollection path)
          else none) = none
    rw [if_neg (by simp [hval]), if_neg (by simp [hroot]), hfind,
      if_neg (by simp [hany])]

/-- C3 witness: the amended theorem applied for user 7 with one trashed
record and the path `/.Trash`. -/
theorem c3_resolver_has_no_trash_branch_witness :
    is_trash_root "/.Trash".toList = true
  ∧ validate_path "/.Trash".toList = true
  ∧ get_resource_inst "7".toList 7
      [⟨2, 7, "7/s.txt".toList, 4, [], [], true, some 200,
        "7/s.txt".toList, "s__y.txt".toList⟩]
      "/.Trash".toList = none :=
  ⟨by decide, by decide,
    (c3_resolver_has_no_trash_branch "7".toList 7
      [⟨2, 7, "7/s.txt".toList, 4, [], [], true, some 200,
        "7/s.txt".toList, "s__y.txt".toList⟩]
      "/.Trash".toList).2 (by decide) (by decide) (by decide) (by decide)⟩

lemma insertLe_perm (le : FileRec → FileRec → Bool) (a : FileRec)
    (l : List FileRec) : (insertLe le a l).Perm (a :: l) := by
  induction l with
  | nil => simp [insertLe]
  | cons b bs ih =>
    rw [insertLe]
    by_cases h : le a b = true
    · rw [if_pos h]
    · rw [if_neg h]
      exact (List.Perm.cons b ih).trans (List.Perm.swap a b bs)

lemma sortLe_perm (le : FileRec → FileRec → Bool) (l : List FileRec) :
    (sortLe le l).Perm l := by
  induction l with
  | nil => simp [sortLe]
  | cons a as ih =>
    rw [sortLe]
    exact (insertLe_perm le a (sortLe le as)).trans (List.Perm.cons a ih)

lemma find?_fid_unique (recs : List FileRec) (r : FileRec)
    (hids : (recs.map (fun x => x.fid)).Nodup) (hmem : r ∈ recs)
    (hdel : r.is_deleted = true) :
    recs.find? (fun x => x.fid == r.fid && x.is_deleted) = some r := by
  induction recs with
  | nil => cases hmem
  | cons a tl ih =>
    rcases List.mem_cons.mp hmem with rfl | hmem'
    · exact List.find?_cons_of_pos _ (by simp [hdel])
    · have hne : a.fid ≠ r.fid := by
        have hnotin : a.fid ∉ tl.map (fun x => x.fid) :=
          (List.nodup_cons.mp (by simpa using hids)).1
        intro heq
        exact hnotin (heq ▸ List.mem_map_of_mem (fun x => x.fid) hmem')
      rw [List.find?_cons_of_neg _ (by simp [hne])]
      exact ih (List.nodup_cons.mp (by simpa using hids)).2 hmem'

lemma permanent_delete_step (st : SysState) (r : FileRec)
    (hmem : r ∈ st.records) (hdel : r.is_deleted = true)
    (hids : (st.records.map (fun x => x.fid)).Nodup) :
    (permanent_delete_file st r.fid).1
      = { st with
          records := st.records.filter (fun x => x.fid != r.fid),
          blobs := storageDelete st.blobs r.key,
          quotas := decrement_usage st.quotas r.owner r.size_bytes } := by
  unfold permanent_delete_file all_objects_find
  rw [find?_fid_unique st.records r hids hmem hdel]

lemma permanent_delete_blob_none (st : SysState) (fid : Nat) (k : Str)
    (h : blobLookup st.blobs k = none) :
    blobLookup (permanent_delete_file st fid).1.blobs k = none := by
  unfold permanent_delete_file all_objects_find
  cases hf : st.records.find? (fun x => x.fid == fid && x.is_deleted) with
  | none => exact h
  | some r => exact blobLookup_storageDelete_none _ _ _ h

lemma purge_fold_blob_none (L : List FileRec) (st : SysState) (k : Str)
    (h : blobLookup st.blobs k = none) :
    blobLookup ((L.foldl (fun s r => (permanent_delete_file s r.fid).1)
      st).blobs) k = none := by
  induction L generalizing st with
  | nil => exact h
  | cons a tl ih =>
    rw [List.foldl_cons]
    exact ih _ (permanent_delete_blob_none st a.fid k h)

lemma purge_fold_spec (L : List FileRec) (st : SysState)
    (hsub : ∀ r ∈ L, r ∈ st.records ∧ r.is_deleted = true)
    (hLids : (L.map (fun x => x.fid)).Nodup)
    (hids : (st.records.map (fun x => x.fid)).Nodup) :
    (L.foldl (fun s r => (permanent_delete_file s r.fid).1) st).records
        = st.records.filter (fun x => !(L.any (fun r => x.fid == r.fid)))
  ∧ (∀ r ∈ L, blobLookup
      ((L.foldl (fun s r => (permanent_delete_file s r.fid).1) st).blobs)
      r.key = none)
  ∧ (∀ o q, quotaFind st.quotas o = some q →
      ((L.filter (fun r => r.owner == o)).map (fun r => r.size_bytes)).sum
        ≤ q.used_bytes →
      quotaFind ((L.foldl (fun s r => (permanent_delete_file s r.fid).1)
        st).quotas) o
        = some { q with used_bytes := q.used_bytes
            - ((L.filter (fun r => r.owner == o)).map
                (fun r => r.size_bytes)).sum }) := by
  induction L generalizing st with
  | nil =>
    refine ⟨by simp, by simp, ?_⟩
    intro o q hq hle
    obtain ⟨qo, ql, qu⟩ := q
    simpa using hq
  | cons a tl ih =>
    have hamem := (hsub a (List.mem_cons_self a tl)).1
    have hadel := (hsub a (List.mem_cons_self a tl)).2
    have hstep := permanent_delete_step st a hamem hadel hids
    have hnotin : a.fid ∉ tl.map (fun x => x.fid) :=
      (List.nodup_cons.mp (by simpa using hLids)).1
    have h1 : ∀ r ∈ tl, r ∈ (st.records.filter
        (fun x => x.fid != a.fid)) ∧ r.is_deleted = true := by
      intro r hr
      refine ⟨?_, (hsub r (List.mem_cons_of_mem a hr)).2⟩
      apply List.mem_filter.mpr
      refine ⟨(hsub r (List.mem_cons_of_mem a hr)).1, ?_⟩
      have hrne : r.fid ≠ a.fid :=
        fun heq => hnotin (heq ▸ List.mem_map_of_mem (fun x => x.fid) hr)
      simpa using hrne
    have h2 : (tl.map (fun x => x.fid)).Nodup :=
      (List.nodup_cons.mp (by simpa using hLids)).2
    have h3 : ((st.records.filter (fun x => x.fid != a.fid)).map
        (fun x => x.fid)).Nodup :=
      List.Sublist.nodup
        (List.Sublist.map (fun x => x.fid) (List.filter_sublist st.records))
        hids
    obtain ⟨ihrec, ihblob, ihq⟩ := ih
      { st with records := st.records.filter (fun x => x.fid != a.fid),
                blobs := storageDelete st.blobs a.key,
                quotas := decrement_usage st.quotas a.owner a.size_bytes }
      h1 h2 h3
    refine ⟨?_, ?_, ?_⟩
    · rw [List.foldl_cons, hstep, ihrec]
      show (st.records.filter (fun x => x.fid != a.fid)).filter
          (fun x => !(tl.any (fun r => x.fid == r.fid))) = _
      rw [List.filter_filter]
      apply List.filter_congr
      intro x hx
      rw [List.any_cons, Bool.not_or, Bool.and_comm]
      simp only [bne]
    · intro r hr
      rcases List.mem_cons.mp hr with rfl | hr'
      · rw [List.foldl_cons, hstep]
        exact purge_fold_blob_none tl _ r.key
          (blobLookup_storageDelete_self st.blobs r.key)
      · rw [List.foldl_cons, hstep]
        exact ihblob r hr'
    · intro o q hq hle
      rw [List.foldl_cons, hstep]
      by_cases ho : a.owner = o
      · have hq1 : quotaFind (decrement_usage st.quotas a.owner
            a.size_bytes) o = some { q with
              used_bytes := q.used_bytes - a.size_bytes } := by
          rw [ho]
          exact quotaFind_decrement_usage st.quotas o a.size_bytes q hq
        have hsum : (((a :: tl).filter (fun r => r.owner == o)).map
            (fun r => r.size_bytes)).sum
            = a.size_bytes + ((tl.filter (fun r => r.owner == o)).map
                (fun r => r.size_bytes)).sum := by
          simp [List.filter_cons, ho]
        rw [hsum] at hle ⊢
        have hle' : ((tl.filter (fun r => r.owner == o)).map
            (fun r => r.size_bytes)).sum ≤ q.used_bytes - a.size_bytes := by
          omega
        have hres := ihq o { q with
          used_bytes := q.used_bytes - a.size_bytes } hq1 hle'
        rw [Nat.sub_sub] at hres
        exact hres
      · have hq1 : quotaFind (decrement_usage st.quotas a.owner
            a.size_bytes) o = some q := by
          rw [quotaFind_decrement_usage_ne st.quotas a.owner o a.size_bytes
            (fun heq => ho heq.symm)]
          exact hq
        have hsum : (a :: tl).filter (fun r => r.owner == o)
            = tl.filter (fun r => r.owner == o) := by
          simp [List.filter_cons, ho]
        rw [hsum] at hle ⊢
        exact ihq o q hq1 hle

/-- C9: one run of the purge job over a batch large enough to cover the
backlog removes every trashed record whose `deleted_at` lies at or before
`now − 30 days` — the row disappears, the blob is deleted — and
subtracts the combined expired sizes from each owner's `used_bytes`;
every record not expired (live, or trashed more recently) survives
untouched. -/
theorem c9_purge_expired (st : SysState) (now : Int) (batchSize : Nat)
    (hids : (st.records.map (fun x => x.fid)).Nodup)
    (hbatch : (st.records.filter (is_expired (now - (retention_days : Int)
        * 86400))).length ≤ batchSize) :
    (∀ r ∈ st.records,
      is_expired (now - (retention_days : Int) * 86400) r = true →
        (∀ x ∈ (cleanup_trash st now batchSize).records, x.fid ≠ r.fid)
      ∧ blobLookup (cleanup_trash st now batchSize).blobs r.key = none)
  ∧ (∀ r ∈ st.records,
      is_expired (now - (retention_days : Int) * 86400) r = false →
        r ∈ (cleanup_trash st now batchSize).records)
  ∧ (∀ o q, quotaFind st.quotas o = some q →
      expiredSizes st o now ≤ q.used_bytes →
      quotaFind (cleanup_trash st now batchSize).quotas o
        = some { q with
            used_bytes := q.used_bytes - expiredSizes st o now }) := by
  set cutoff := now - (retention_days : Int) * 86400 with hcut
  set E := st.records.filter (is_expired cutoff) with hE
  set L := (sortLe (fun a b => decide (deletedAtKey a ≤ deletedAtKey b))
    E).take batchSize with hL
  have hsortperm := sortLe_perm
    (fun a b => decide (deletedAtKey a ≤ deletedAtKey b)) E
  have hlen : (sortLe (fun a b => decide (deletedAtKey a ≤ deletedAtKey b))
      E).length ≤ batchSize := by
    rw [hsortperm.length_eq]; exact hbatch
  have htake : L = sortLe
      (fun a b => decide (deletedAtKey a ≤ deletedAtKey b)) E :=
    hL.trans (List.take_of_length_le hlen)
  have hperm : L.Perm E := htake ▸ hsortperm
  have hclean : cleanup_trash st now batchSize
      = L.foldl (fun s r => (permanent_delete_file s r.fid).1) st := by
    rw [hL, hE, hcut]
    rfl
  have hsub : ∀ r ∈ L, r ∈ st.records ∧ r.is_deleted = true := by
    intro r hr
    have hrE := hperm.mem_iff.mp hr
    rw [hE] at hrE
    have hm := List.mem_filter.mp hrE
    refine ⟨hm.1, ?_⟩
    have hexp := hm.2
    unfold is_expired at hexp
    exact (Bool.and_eq_true_iff.mp hexp).1
  have hLids : (L.map (fun x => x.fid)).Nodup := by
    have hEids : (E.map (fun x => x.fid)).Nodup := by
      rw [hE]
      exact List.Sublist.nodup
        (List.Sublist.map (fun x : FileRec => x.fid)
          (List.filter_sublist st.records)) hids
    exact List.Perm.nodup ((hperm.map (fun x => x.fid)).symm) hEids
  obtain ⟨hrec, hblob, hquota⟩ := purge_fold_spec L st hsub hLids hids
  rw [hclean]
  refine ⟨?_, ?_, ?_⟩
  · intro r hrmem hrexp
    have hrE : r ∈ E := by
      rw [hE]; exact List.mem_filter.mpr ⟨hrmem, hrexp⟩
    have hrL : r ∈ L := hperm.mem_iff.mpr hrE
    constructor
    · intro x hx
      rw [hrec] at hx
      have hxp := (List.mem_filter.mp hx).2
      have hall : L.any (fun l => x.fid == l.fid) = false := by
        cases hany : L.any (fun l => x.fid == l.fid)
        · rfl
        · rw [hany] at hxp; exact absurd hxp (by decide)
      rw [List.any_eq_false] at hall
      intro heq
      exact (hall r hrL) (by simp [heq])
    · exact hblob r hrL
  · intro r hrmem hrexp
    rw [hrec]
    apply List.mem_filter.mpr
    refine ⟨hrmem, ?_⟩
    have hnone : L.any (fun l => r.fid == l.fid) = false := by
      rw [List.any_eq_false]
      intro l hl hbeq
      have hlE := hperm.mem_iff.mp hl
      rw [hE] at hlE
      have hlm := List.mem_filter.mp hlE
      have hfideq : r.fid = l.fid := by simpa using hbeq
      have hlr : l = r :=
        List.inj_on_of_nodup_map hids hlm.1 hrmem hfideq.symm
      rw [hlr] at hlm
      rw [hlm.2] at hrexp
      exact Bool.noConfusion hrexp
    show (!(L.any fun l => r.fid == l.fid)) = true
    rw [hnone]
    rfl
  · intro o q hq hle
    have hsumeq : ((L.filter (fun r => r.owner == o)).map
        (fun r => r.size_bytes)).sum = expiredSizes st o now := by
      have hpf : (L.filter (fun r => r.owner == o)).Perm
          (E.filter (fun r => r.owner == o)) := hperm.filter _
      have hsums := ((hpf.map (fun r => r.size_bytes))).sum_eq
      rw [hsums]
      unfold expiredSizes
      rw [← hcut, ← List.filter_filter, ← hE]
    rw [← hsumeq] at hle
    have hres := hquota o q hq hle
    rw [hsumeq] at hres
    exact hres

/-- C9 witness: the theorem applied to owner 7 with one record trashed 31
days ago (200 bytes) and one trashed 29 days ago, usage 300: the run
leaves usage 100 and keeps the recent record. -/
theorem c9_purge_expired_witness :
    (([⟨1, 7, "7/old.txt".toList, 200, [], [], true, some 0,
        "7/old.txt".toList, "old__t.txt".toList⟩,
      ⟨2, 7, "7/new.txt".toList, 100, [], [], true, some 172800,
        "7/new.txt".toList, "new__t.txt".toList⟩] : List FileRec).map
      (fun x => x.fid)).Nodup
  ∧ quotaFind (cleanup_trash
      ⟨[⟨1, 7, "7/old.txt".toList, 200, [], [], true, some 0,
          "7/old.txt".toList, "old__t.txt".toList⟩,
        ⟨2, 7, "7/new.txt".toList, 100, [], [], true, some 172800,
          "7/new.txt".toList, "new__t.txt".toList⟩],
        [("7/old.txt".toList, "A".toList), ("7/new.txt".toList, "B".toList)],
        [⟨7, 1000, 300⟩], 3⟩ 2678400 10).quotas 7
      = some ⟨7, 1000, 100⟩ := by
  refine ⟨by decide, ?_⟩
  have h := (c9_purge_expired
    ⟨[⟨1, 7, "7/old.txt".toList, 200, [], [], true, some 0,
        "7/old.txt".toList, "old__t.txt".toList⟩,
      ⟨2, 7, "7/new.txt".toList, 100, [], [], true, some 172800,
        "7/new.txt".toList, "new__t.txt".toList⟩],
      [("7/old.txt".toList, "A".toList), ("7/new.txt".toList, "B".toList)],
      [⟨7, 1000, 300⟩], 3⟩ 2678400 10 (by decide) (by decide)).2.2
    7 ⟨7, 1000, 300⟩ (by decide) (by decide)
  exact h
